import Mathlib

/-!
Shallow embedding of the mmark `mparser` bibliography engine
(CitationToBibliography, NodeBackMatter, anchorFromReference, ReferenceHook,
IsReference, fmtReference, AddBibliography, authContFromTitle) and proofs of
the specified properties.

Modelling conventions:
* Go byte slices (`[]byte`) and strings are modelled as `List Nat` of byte
  values; all literals in the source are ASCII, so `bytes.ToLower` and
  `strings.EqualFold` are modelled by ASCII case folding.
* Go slices are modelled with capacity equal to length; a slice expression
  whose bounds are out of range is a run-time panic, modelled as `none` in an
  `Option`-typed result.
* Go `map[string]T` is modelled as an association list with insert-or-replace
  assignment; the source never iterates a map directly (it extracts the keys
  and sorts them first), so association-list order is unobservable.
* `xml.Unmarshal` and `xml.MarshalIndent` are external collaborators (Go
  standard library); they are abstracted as function parameters
  `dec : Bytes → Option Reference` / `mar : Reference → Option Bytes`
  (`none` = error return).
* `log.Printf` / `log.Print` diagnostics are modelled by an explicit list of
  `Diag` values returned alongside the result.
-/

namespace Mmark

/-- Byte strings: Go `[]byte` / `string`, as a list of byte values. -/
abbrev Bytes := List Nat

/-- ASCII string literal to bytes (all source literals are ASCII). -/
def strB (s : String) : Bytes := s.data.map Char.toNat

/-- ASCII case folding of one byte (model of the `bytes`/`strings`
lower-casing on the ASCII inputs this engine handles). -/
def byteToLower (b : Nat) : Nat := if 65 ≤ b ∧ b ≤ 90 then b + 32 else b

/-- Model of `bytes.ToLower` on ASCII data. -/
def toLowerB (s : Bytes) : Bytes := s.map byteToLower

/-- Model of `strings.EqualFold` on ASCII data. -/
def eqFold (a b : Bytes) : Bool := toLowerB a == toLowerB b

/-- Go string `<` (byte-wise lexicographic), as `≤`, used to model
`sort.Strings` by insertion sort. -/
def lexLe : Bytes → Bytes → Bool
  | [], _ => true
  | _ :: _, [] => false
  | a :: as, b :: bs => decide (a < b) || (a == b && lexLe as bs)

/-- `lexLe` as a proposition, for `List.insertionSort`. -/
def LexLe (a b : Bytes) : Prop := lexLe a b = true

instance : DecidableRel LexLe := fun a b => by unfold LexLe; infer_instance

/-- Model of `sort.Strings`: ascending byte-wise lexicographic sort. -/
def sortStrings (l : List Bytes) : List Bytes := l.insertionSort LexLe

/-! ### Association lists modelling Go maps -/

/-- Go map read `m[k]` (presence as `Option`). -/
def mapGet {α : Type} (m : List (Bytes × α)) (k : Bytes) : Option α :=
  (m.find? (fun p => p.1 == k)).map (·.2)

/-- Go map assignment `m[k] = v`: replace the binding if present, else append. -/
def mapSet {α : Type} (m : List (Bytes × α)) (k : Bytes) (v : α) :
    List (Bytes × α) :=
  if (m.find? (fun p => p.1 == k)).isSome then
    m.map (fun p => if p.1 == k then (k, v) else p)
  else
    m ++ [(k, v)]

/-- The keys of a Go map (for `for k := range seen`). -/
def mapKeys {α : Type} (m : List (Bytes × α)) : List Bytes := m.map (·.1)

/-! ### Data model -/

/-- `ast.CitationTypes` restricted to the three values the upstream parser
produces for citations (per the spec's data model). -/
inductive CitationType where
  | suppressed
  | informative
  | normative
deriving DecidableEq, Repr

/-- Modelled from the spec: `reference.Reference`, the external structured
record decoded from a reference block (package `mast/reference`, not under
`src/`). Its bibliographic fields are never inspected by the core, so it is
abstracted to an opaque payload. -/
structure Reference where
  payload : Bytes
deriving DecidableEq, Repr

/-- Modelled from the spec: `mast.BibliographyItem` (package `mast`, not under
`src/`); fields are exactly those the core reads or writes: `Anchor`, `Type`,
`Reference`, `ReferenceGroup`. -/
structure BibliographyItem where
  anchor : Bytes
  type : CitationType
  reference : Option Reference := none
  referenceGroup : Option Bytes := none
deriving DecidableEq, Repr

/-- Modelled from the spec: the author/contact full-name data of `mast.Title`
(`TitleData.Author[i].Fullname` and `TitleData.Contact[i].Fullname`); only the
full names are read by the core. -/
structure TitleData where
  author : List Bytes
  contact : List Bytes
deriving DecidableEq, Repr

/-- `ast.DocumentMatter` values. -/
inductive Matter where
  | front
  | main
  | back
deriving DecidableEq, Repr

/-- A `mast.Bibliography` node: its `Type` and its `BibliographyItem`
children (item children are kept as a field, they are always leaves). -/
structure Bib where
  type : CitationType
  items : List BibliographyItem
deriving DecidableEq, Repr

/-- A diagnostic written to the log sink. -/
inductive Diag where
  | unmarshalFailed (anchor : Bytes)
  | noBackMatter
deriving DecidableEq, Repr

/-- The node payloads relevant to the engine; every other node type of the
document tree is `other`. -/
inductive NodeKind where
  | citation (dests : List (Bytes × CitationType))
  | referenceBlock (literal : Bytes)
  | title (td : TitleData)
  | documentMatter (matter : Matter)
  | bibliography (bib : Bib)
  | bibliographyWrapper
  | other
deriving DecidableEq, Repr

/-- A document-tree node (`ast.Node`): a kind plus ordered children.
`Citation.Destination`/`Citation.Type` are the parallel arrays of the
upstream `ast.Citation`; they always have equal length (parser invariant), so
they are modelled as a single list of pairs. -/
inductive Node where
  | mk (kind : NodeKind) (children : List Node)

/-- The kind of a node. -/
def Node.kind : Node → NodeKind
  | .mk k _ => k

/-- The children of a node. -/
def Node.kids : Node → List Node
  | .mk _ cs => cs

mutual

/-- The enter-visit order of `ast.WalkFunc` (depth-first pre-order).  The
callbacks in this file act only on leaf node types (`Citation`,
`ReferenceBlock`, `Title`) or search for a first match, so the additional
exit-visits of container nodes are unobservable and are not modelled. -/
def preorder : Node → List Node
  | .mk k cs => .mk k cs :: preorderL cs

/-- Pre-order of a forest. -/
def preorderL : List Node → List Node
  | [] => []
  | n :: ns => preorder n ++ preorderL ns

end

/-! ### Byte-scanning primitives (models of `bytes` package calls) -/

/-- First index at which `sep` occurs as a contiguous sublist of the argument,
if any (the found-case of `bytes.Index`). -/
def firstSublistIdx (sep : Bytes) : Bytes → Option Nat
  | [] => if sep = [] then some 0 else none
  | a :: s =>
    if sep.isPrefixOf (a :: s) then some 0
    else (firstSublistIdx sep s).map (· + 1)

/-- Model of `bytes.Index`: first occurrence of `sep` in `s`, `-1` if absent
(the source consumes the result as a Go `int`). -/
def bytesIndex (s sep : Bytes) : Int :=
  match firstSublistIdx sep s with
  | some n => (n : Int)
  | none => -1

/-- Go slice expression `data[lo:]` with capacity = length: `none` is the
out-of-range panic. -/
def goSliceFrom (data : Bytes) (lo : Int) : Option Bytes :=
  if 0 ≤ lo ∧ lo ≤ (data.length : Int) then some (data.drop lo.toNat) else none

/-- Go slice expression `data[:hi]` with capacity = length: `none` is the
out-of-range panic. -/
def goSliceTo (data : Bytes) (hi : Int) : Option Bytes :=
  if 0 ≤ hi ∧ hi ≤ (data.length : Int) then some (data.take hi.toNat) else none

/-- `"<reference "` -/
def refOpen : Bytes := strB "<reference "

/-- `"<referencegroup "` -/
def refGroupOpen : Bytes := strB "<referencegroup "

/-- `"</reference>"` -/
def refClose : Bytes := strB "</reference>"

/-- `"</referencegroup>"` -/
def refGroupClose : Bytes := strB "</referencegroup>"

/-- `"anchor="` -/
def anchorAttr : Bytes := strB "anchor="

/-! ### The embedded functions of `mparser` -/

/-- `anchorFromReference`: extract the value following `anchor=` from a raw
reference span.  The byte immediately after `anchor=` (whatever it is) is
taken as the closing delimiter; the scan `for i < len(data) && data[i] !=
quote` is modelled by `takeWhile`. -/
def anchorFromReference (data : Bytes) : Option Bytes :=
  if !(refOpen.isPrefixOf data) && !(refGroupOpen.isPrefixOf data) then none
  else
    match firstSublistIdx anchorAttr data with
    | none => none
    | some anchor =>
      let beg := anchor + 7
      if beg ≥ data.length then none
      else
        let quote := data.getD beg 0
        -- i = beg+1 advanced while data[i] ≠ quote and i < len(data)
        let i := beg + 1 + ((data.drop (beg + 1)).takeWhile (· ≠ quote)).length
        -- no end-of-reference marker
        if i ≥ data.length then none
        else some ((data.drop (beg + 1)).take (i - (beg + 1)))

/-- `IsReference`: recognize a `<reference ...>...</reference>` or
`<referencegroup ...>...</referencegroup>` span.  Result: `none` = Go panic
(out-of-range slice), `some none` = `(nil, false)`, `some (some s)` =
`(s, true)`.  The two Go `if HasPrefix` statements assign `typ` in sequence;
the two openers are mutually exclusive, so the sequence is an if/else. -/
def IsReference (data : Bytes) : Option (Option Bytes) :=
  let typ :=
    if refGroupOpen.isPrefixOf data then refGroupClose
    else if refOpen.isPrefixOf data then refClose
    else []
  if typ = [] then some none
  else
    match goSliceFrom data typ.length with
    | none => none
    | some rest =>
      -- scan for an end-of-reference marker
      let e : Int := bytesIndex rest typ
      if e > (data.length : Int) || e = 0 then some none
      else
        match goSliceTo data (e + 2 * typ.length) with
        | none => none
        | some span => some (some span)

/-- `fmtReference`: reserialize a decodable reference into canonical form,
returning the input unchanged when `xml.Unmarshal` or `xml.MarshalIndent`
errors (`dec`/`mar` abstract those external calls). -/
def fmtReference (dec : Bytes → Option Reference) (mar : Reference → Option Bytes)
    (data : Bytes) : Bytes :=
  match dec data with
  | none => data
  | some x =>
    match mar x with
    | none => data
    | some out => out

/-- `ReferenceHook`: the block-level hook.  Result: `none` = panic propagated
from `IsReference`; `some (none, 0)` = `(nil, nil, 0)` (no match);
`some (some lit, n)` = a `ReferenceBlock` node with `Literal = lit`,
consuming `n` bytes.  (The middle `[]byte` return of the Go hook is always
`nil` and is omitted.) -/
def ReferenceHook (dec : Bytes → Option Reference) (mar : Reference → Option Bytes)
    (data : Bytes) : Option (Option Bytes × Nat) :=
  match IsReference data with
  | none => none
  | some none => some (none, 0)
  | some (some ref) => some (some (fmtReference dec mar ref), ref.length)

/-- `authContFromTitle`: all author full names then all contact full names;
`none` models a nil `*mast.Title`. -/
def authContFromTitle : Option TitleData → List Bytes
  | none => []
  | some t => t.author ++ t.contact

/-- The first walk of `CitationToBibliography`: find the first `mast.Title`
node in walk order and stop (`ast.Terminate`). -/
def findFirstTitle (doc : Node) : Option TitleData :=
  (preorder doc).findSome? (fun n =>
    match n.kind with
    | .title td => some td
    | _ => none)

/-- The names captured by the first walk (empty when no title node exists,
matching the `names := []string{}` initialisation). -/
def collectNames (doc : Node) : List Bytes :=
  match findFirstTitle doc with
  | some td => authContFromTitle (some td)
  | none => []

/-- One destination of a citation node, processed as in the labelled
`Destination:` loop: skip when `strings.EqualFold` matches a name, skip when
`seen[lower(d)]` is already present, otherwise `seen[d] = {Anchor: d, Type:
t}`.  Note the asymmetry of the source: the membership check lower-cases the
key, the assignment does not. -/
def seenStep (names : List Bytes) (seen : List (Bytes × BibliographyItem))
    (dt : Bytes × CitationType) : List (Bytes × BibliographyItem) :=
  if names.any (fun nm => eqFold nm dt.1) then seen
  else if (mapGet seen (toLowerB dt.1)).isSome then seen
  else mapSet seen dt.1 { anchor := dt.1, type := dt.2 }

/-- The second walk of `CitationToBibliography`, per node: citations feed the
`seen` map, reference blocks feed the `raw` map keyed by the lower-cased
extracted anchor (`anchor != nil` is `Option.isSome`). -/
def collectNode (names : List Bytes)
    (st : List (Bytes × BibliographyItem) × List (Bytes × Bytes)) (n : Node) :
    List (Bytes × BibliographyItem) × List (Bytes × Bytes) :=
  match n.kind with
  | .citation dests => (dests.foldl (seenStep names) st.1, st.2)
  | .referenceBlock lit =>
    match anchorFromReference lit with
    | some anchor => (st.1, mapSet st.2 (toLowerB anchor) lit)
    | none => st
  | _ => st

/-- The two walks of `CitationToBibliography`: the captured names, then the
full traversal filling `seen` and `raw`. -/
def collect (doc : Node) :
    List (Bytes × BibliographyItem) × List (Bytes × Bytes) :=
  (preorder doc).foldl (collectNode (collectNames doc)) ([], [])

/-- Attach the raw XML to one item, as in the body of the sorted-keys loop:
look up `raw[lower(r.Anchor)]`; on `xml.Unmarshal` failure keep the raw bytes
in `ReferenceGroup` and log, on success store the decoded `Reference`. -/
def enrich (dec : Bytes → Option Reference) (raw : List (Bytes × Bytes))
    (r : BibliographyItem) : BibliographyItem × List Diag :=
  match mapGet raw (toLowerB r.anchor) with
  | some rw =>
    match dec rw with
    | none => ({ r with referenceGroup := some rw }, [Diag.unmarshalFailed r.anchor])
    | some x => ({ r with reference := some x }, [])
  | none => (r, [])

/-- The assembler state: the two lazily created groups and the log. -/
structure BibState where
  normative : Option Bib := none
  informative : Option Bib := none
  diags : List Diag := []
deriving DecidableEq, Repr

/-- `ast.AppendChild(group, r)` with lazy `&mast.Bibliography{Type: t}`
creation, as in both `switch` arms. -/
def appendBib (g : Option Bib) (t : CitationType) (r : BibliographyItem) :
    Option Bib :=
  match g with
  | none => some { type := t, items := [r] }
  | some b => some { type := b.type, items := b.items ++ [r] }

/-- One iteration of the sorted-keys loop of `CitationToBibliography`:
fetch `r := seen[k]`, attach the raw XML (`enrich`), then switch on the
citation type exactly as the Go `switch` (suppressed falls through to the
informative arm). -/
def assembleStep (dec : Bytes → Option Reference)
    (seen : List (Bytes × BibliographyItem)) (raw : List (Bytes × Bytes))
    (st : BibState) (k : Bytes) : BibState :=
  match mapGet seen k with
  | none => st  -- unreachable: the keys are drawn from `seen`
  | some r0 =>
    match ((enrich dec raw r0).1).type with
    | .suppressed =>
      { st with
        informative := appendBib st.informative .informative (enrich dec raw r0).1,
        diags := st.diags ++ (enrich dec raw r0).2 }
    | .informative =>
      { st with
        informative := appendBib st.informative .informative (enrich dec raw r0).1,
        diags := st.diags ++ (enrich dec raw r0).2 }
    | .normative =>
      { st with
        normative := appendBib st.normative .normative (enrich dec raw r0).1,
        diags := st.diags ++ (enrich dec raw r0).2 }

/-- The second half of `CitationToBibliography`: extract the keys of `seen`,
sort them, and fold the loop body over them. -/
def assemble (dec : Bytes → Option Reference)
    (seen : List (Bytes × BibliographyItem)) (raw : List (Bytes × Bytes)) :
    BibState :=
  (sortStrings (mapKeys seen)).foldl (assembleStep dec seen raw) {}

/-- `CitationToBibliography`: the whole resolution (collection walks followed
by the sorted assembly loop), returning the normative group, the informative
group and the emitted diagnostics. -/
def CitationToBibliography (dec : Bytes → Option Reference) (doc : Node) :
    BibState :=
  assemble dec (collect doc).1 (collect doc).2

/-- Is this node `*ast.DocumentMatter` with `Matter == DocumentMatterBack`? -/
def isBackMatter (n : Node) : Bool :=
  match n.kind with
  | .documentMatter .back => true
  | _ => false

mutual

/-- `NodeBackMatter`: first back-matter node in walk order (the walk
terminates on the first match). -/
def NodeBackMatter : Node → Option Node
  | .mk k cs =>
    if isBackMatter (.mk k cs) then some (.mk k cs) else NodeBackMatterL cs

/-- First back-matter node of a forest. -/
def NodeBackMatterL : List Node → Option Node
  | [] => none
  | n :: ns =>
    match NodeBackMatter n with
    | some b => some b
    | none => NodeBackMatterL ns

end

mutual

/-- Append `extra` to the children of the first back-matter node (the in-place
mutation of the node returned by `NodeBackMatter`); the boolean reports
whether a back-matter node was found. -/
def appendAtBackMatter : Node → List Node → Node × Bool
  | .mk k cs, extra =>
    if isBackMatter (.mk k cs) then (.mk k (cs ++ extra), true)
    else (.mk k (appendAtBackMatterL cs extra).1, (appendAtBackMatterL cs extra).2)

/-- `appendAtBackMatter` over a forest: rewrite the first subtree containing a
back-matter node, keep the rest. -/
def appendAtBackMatterL : List Node → List Node → List Node × Bool
  | [], _ => ([], false)
  | n :: ns, extra =>
    if (appendAtBackMatter n extra).2 then ((appendAtBackMatter n extra).1 :: ns, true)
    else (n :: (appendAtBackMatterL ns extra).1, (appendAtBackMatterL ns extra).2)

end

/-- A `mast.Bibliography` subtree as a node. -/
def bibNode (b : Bib) : Node := .mk (.bibliography b) []

/-- `AddBibliography`: run the resolution, locate back matter, and splice.
The Go code appends an empty wrapper first and then fills it through the
redirected `where`; the net children appended to the back-matter node are
modelled directly.  Result: (tree after mutation, returned bool, log). -/
def AddBibliography (dec : Bytes → Option Reference) (doc : Node) :
    Node × Bool × List Diag :=
  let st := CitationToBibliography dec doc
  match NodeBackMatter doc with
  | none =>
    let ds :=
      if st.normative.isSome || st.informative.isSome then
        st.diags ++ [Diag.noBackMatter]
      else st.diags
    (doc, false, ds)
  | some _ =>
    let extra : List Node :=
      match st.normative, st.informative with
      | some n, some i => [.mk .bibliographyWrapper [bibNode n, bibNode i]]
      | some n, none => [bibNode n]
      | none, some i => [bibNode i]
      | none, none => []
    ((appendAtBackMatter doc extra).1,
     st.normative.isSome || st.informative.isSome, st.diags)

/-! ### Derived views used by the statements -/

/-- The items of an optional bibliography group (empty when the group was
never created). -/
def itemsOf : Option Bib → List BibliographyItem
  | none => []
  | some b => b.items

/-- All items of both groups, normative first. -/
def allItems (st : BibState) : List BibliographyItem :=
  itemsOf st.normative ++ itemsOf st.informative

/-- The children of the back-matter node located by `NodeBackMatter`. -/
def backMatterKids (doc : Node) : Option (List Node) :=
  (NodeBackMatter doc).map Node.kids

/-- Invariant of the `seen` map built by the collection walk: keys are
unique; every stored key is the case-preserved anchor of its item; no stored
anchor fold-matches an author or contact name; the raw-payload fields are
still unset. -/
def SeenInv (names : List Bytes) (seen : List (Bytes × BibliographyItem)) :
    Prop :=
  (mapKeys seen).Nodup ∧
  ∀ p ∈ seen, p.1 = p.2.anchor ∧
    (names.any fun nm => eqFold nm p.2.anchor) = false ∧
    p.2.reference = none ∧ p.2.referenceGroup = none

/-- Provenance invariant of the assembler state: every item of a group is an
enriched `seen` item of the matching citation type, group type tags are the
collapsed values, and every diagnostic is an unmarshal failure. -/
def FromSeen (dec : Bytes → Option Reference)
    (seen : List (Bytes × BibliographyItem)) (raw : List (Bytes × Bytes))
    (st : BibState) : Prop :=
  (∀ b, st.normative = some b → b.type = .normative ∧
    ∀ it ∈ b.items, (∃ p ∈ seen, it = (enrich dec raw p.2).1) ∧
      it.type = .normative) ∧
  (∀ b, st.informative = some b → b.type = .informative ∧
    ∀ it ∈ b.items, (∃ p ∈ seen, it = (enrich dec raw p.2).1) ∧
      (it.type = .suppressed ∨ it.type = .informative)) ∧
  ∀ d ∈ st.diags, ∃ a, d = Diag.unmarshalFailed a

/-! ### Concrete sample inputs for witnesses and counterexamples -/

/-- A decoder for which every structured decode fails. -/
def decNone : Bytes → Option Reference := fun _ => none

/-- A decoder for which every structured decode succeeds. -/
def decAll : Bytes → Option Reference := fun bs => some ⟨bs⟩

/-- A re-encoder producing a fixed canonical serialization. -/
def marCanon : Reference → Option Bytes := fun _ => some (strB "CANON")

/-- A single-destination citation node. -/
def citNode (s : String) (t : CitationType) : Node :=
  .mk (.citation [(strB s, t)]) []

/-- An empty back-matter node. -/
def backNode : Node := .mk (.documentMatter .back) []

/-- Two normative citations whose anchors differ only in case, upper-case
first. -/
def docCase : Node := .mk .other [citNode "X" .normative, citNode "x" .normative]

/-- One suppressed citation. -/
def docSupp : Node := .mk .other [citNode "S" .suppressed]

/-- One suppressed and one normative citation. -/
def docSuppNorm : Node :=
  .mk .other [citNode "S" .suppressed, citNode "N" .normative]

/-- A raw reference block for anchor `B` whose body defeats the structured
decode. -/
def rawB : Bytes := strB "<reference anchor=\"B\">garbage</reference>"

/-- A normative citation of `B`, its malformed raw block, and a back-matter
node. -/
def docBad : Node :=
  .mk .other [citNode "B" .normative, .mk (.referenceBlock rawB) [], backNode]

/-- A title naming an author, a citation of that author, and an ordinary
citation. -/
def docSelf : Node :=
  .mk .other
    [.mk (.title ⟨[strB "John Doe"], []⟩) [],
     citNode "john doe" .normative, citNode "A" .normative]

/-- One normative citation and a back-matter node. -/
def docNorm : Node := .mk .other [citNode "A" .normative, backNode]

/-- A buffer opening a reference but containing no closing marker. -/
def noCloser : Bytes := strB "<reference a>aaaaaaaaaaa"

/-- A 12-byte buffer opening a reference, too short for the slice arithmetic
of `IsReference`. -/
def shortRef : Bytes := strB "<reference >"

/-- A well-formed single-reference span. -/
def goodRef : Bytes := strB "<reference a>x</reference>"

/-- A raw span with a quoted anchor attribute. -/
def anchECase : Bytes := strB "<reference anchor=\"X\" >"

/-- The informative group produced from `docSuppNorm`. -/
def bibSW : Bib :=
  { type := .informative, items := [{ anchor := strB "S", type := .suppressed }] }

/-- The normative group produced from `docNorm`. -/
def bibNW : Bib :=
  { type := .normative, items := [{ anchor := strB "A", type := .normative }] }

/-- The anchor-only item produced for citation `A` of `docSelf`. -/
def itA : BibliographyItem := { anchor := strB "A", type := .normative }

/-- The seed item collected for citation `B` of `docBad`. -/
def itB0 : BibliographyItem := { anchor := strB "B", type := .normative }

/-! ## Lemmas about the ordering used by `sortStrings` -/

theorem lexLe_total (a b : Bytes) : lexLe a b = true ∨ lexLe b a = true := by
  induction a generalizing b with
  | nil => left; rfl
  | cons x xs ih =>
    cases b with
    | nil => right; rfl
    | cons y ys =>
      simp only [lexLe, Bool.or_eq_true, decide_eq_true_eq, Bool.and_eq_true,
        beq_iff_eq]
      rcases Nat.lt_trichotomy x y with h | h | h
      · exact Or.inl (Or.inl h)
      · subst h
        rcases ih ys with h2 | h2
        · exact Or.inl (Or.inr ⟨rfl, h2⟩)
        · exact Or.inr (Or.inr ⟨rfl, h2⟩)
      · exact Or.inr (Or.inl h)

theorem lexLe_trans : ∀ {a b c : Bytes}, lexLe a b = true → lexLe b c = true →
    lexLe a c = true := by
  intro a
  induction a with
  | nil => intro b c _ _; rfl
  | cons x xs ih =>
    intro b c h1 h2
    cases b with
    | nil => simp [lexLe] at h1
    | cons y ys =>
      cases c with
      | nil => simp [lexLe] at h2
      | cons z zs =>
        simp only [lexLe, Bool.or_eq_true, decide_eq_true_eq, Bool.and_eq_true,
          beq_iff_eq] at h1 h2 ⊢
        rcases h1 with h1 | ⟨rfl, h1⟩
        · rcases h2 with h2 | ⟨rfl, h2⟩
          · exact Or.inl (Nat.lt_trans h1 h2)
          · exact Or.inl h1
        · rcases h2 with h2 | ⟨rfl, h2⟩
          · exact Or.inl h2
          · exact Or.inr ⟨rfl, ih h1 h2⟩

theorem sortStrings_sorted (l : List Bytes) :
    List.Sorted LexLe (sortStrings l) := by
  haveI : IsTotal Bytes LexLe := ⟨lexLe_total⟩
  haveI : IsTrans Bytes LexLe := ⟨fun _ _ _ => lexLe_trans⟩
  exact List.sorted_insertionSort LexLe l

theorem sortStrings_perm (l : List Bytes) : List.Perm (sortStrings l) l :=
  List.perm_insertionSort LexLe l

theorem mem_sortStrings {k : Bytes} {l : List Bytes} (h : k ∈ l) :
    k ∈ sortStrings l :=
  ((sortStrings_perm l).mem_iff).mpr h

/-! ## Lemmas about `takeWhile` scans -/

theorem takeWhile_length_lt_of_mem {q : Nat} :
    ∀ {l : Bytes}, q ∈ l → (l.takeWhile (· ≠ q)).length < l.length := by
  intro l
  induction l with
  | nil => intro h; cases h
  | cons a l ih =>
    intro h
    by_cases ha : a = q
    · subst ha
      simp [List.takeWhile]
    · rw [List.takeWhile_cons_of_pos (by simpa using ha)]
      have : q ∈ l := by
        rcases List.mem_cons.mp h with h' | h'
        · exact absurd h'.symm ha
        · exact h'
      simpa using Nat.succ_lt_succ (ih this)

theorem takeWhile_eq_self_of_not_mem {q : Nat} :
    ∀ {l : Bytes}, q ∉ l → l.takeWhile (· ≠ q) = l := by
  intro l
  induction l with
  | nil => intro _; rfl
  | cons a l ih =>
    intro h
    have ha : a ≠ q := fun e => h (e ▸ List.mem_cons_self a l)
    rw [List.takeWhile_cons_of_pos (by simpa using ha)]
    rw [ih (fun hq => h (List.mem_cons_of_mem a hq))]

theorem take_takeWhile_length {p : Nat → Bool} :
    ∀ (l : Bytes), l.take ((l.takeWhile p).length) = l.takeWhile p := by
  intro l
  induction l with
  | nil => rfl
  | cons a l ih =>
    by_cases hp : p a
    · rw [List.takeWhile_cons_of_pos hp]
      simpa [List.take] using ih
    · rw [List.takeWhile_cons_of_neg hp]
      rfl

/-! ## Lemmas about the association-list model of Go maps -/

theorem mem_of_mapGet_eq_some {α : Type} {m : List (Bytes × α)} {k : Bytes}
    {v : α} (h : mapGet m k = some v) : (k, v) ∈ m := by
  unfold mapGet at h
  cases hf : m.find? (fun p => p.1 == k) with
  | none => rw [hf] at h; cases h
  | some p =>
    rw [hf] at h
    have hp := List.find?_some hf
    have hk : p.1 = k := by simpa using hp
    have hm : p ∈ m := List.mem_of_find?_eq_some hf
    have hv : p.2 = v := by simpa using h
    have : p = (k, v) := by
      cases p with
      | mk a b => simp_all
    exact this ▸ hm

theorem mapGet_eq_some_of_mem {α : Type} {m : List (Bytes × α)} {k : Bytes}
    {v : α} (hnd : (mapKeys m).Nodup) (h : (k, v) ∈ m) :
    mapGet m k = some v := by
  induction m with
  | nil => cases h
  | cons p m ih =>
    rcases List.mem_cons.mp h with h1 | h1
    · subst h1
      unfold mapGet
      rw [List.find?_cons_of_pos _ (by simp)]
      rfl
    · have hnd' : (mapKeys m).Nodup := (List.nodup_cons.mp hnd).2
      have hk : k ∈ mapKeys m := List.mem_map_of_mem (·.1) h1
      have hne : (p.1 == k) = false := by
        have : p.1 ∉ mapKeys m := by
          intro hc
          exact (List.nodup_cons.mp hnd).1 hc
        have : p.1 ≠ k := fun e => this (e ▸ hk)
        simpa using this
      unfold mapGet at ih ⊢
      rw [List.find?_cons_of_neg _ (by simp [hne])]
      exact ih hnd' h1

theorem mem_mapSet {α : Type} {m : List (Bytes × α)} {k : Bytes} {v : α}
    {p : Bytes × α} (h : p ∈ mapSet m k v) : p = (k, v) ∨ p ∈ m := by
  unfold mapSet at h
  by_cases hc : (m.find? (fun q => q.1 == k)).isSome
  · rw [if_pos hc] at h
    rcases List.mem_map.mp h with ⟨q, hq, he⟩
    by_cases hqk : (q.1 == k) = true
    · rw [if_pos hqk] at he; exact Or.inl he.symm
    · rw [if_neg (by simpa using hqk)] at he
      exact Or.inr (he ▸ hq)
  · rw [if_neg hc] at h
    rcases List.mem_append.mp h with h1 | h1
    · exact Or.inr h1
    · exact Or.inl (by simpa using h1)

theorem mapKeys_mapSet_of_found {α : Type} {m : List (Bytes × α)} {k : Bytes}
    {v : α} (hc : (m.find? (fun q => q.1 == k)).isSome) :
    mapKeys (mapSet m k v) = mapKeys m := by
  unfold mapSet
  rw [if_pos hc]
  unfold mapKeys
  rw [List.map_map]
  apply List.map_congr_left
  intro p _
  by_cases hpk : (p.1 == k) = true
  · simp only [Function.comp]
    rw [if_pos hpk]
    exact (by simpa using hpk : p.1 = k).symm
  · simp only [Function.comp]
    rw [if_neg (by simpa using hpk)]

theorem mapKeys_nodup_mapSet {α : Type} {m : List (Bytes × α)} {k : Bytes}
    {v : α} (hnd : (mapKeys m).Nodup) : (mapKeys (mapSet m k v)).Nodup := by
  by_cases hc : (m.find? (fun q => q.1 == k)).isSome
  · rw [mapKeys_mapSet_of_found hc]; exact hnd
  · unfold mapSet
    rw [if_neg hc]
    have hnone : m.find? (fun q => q.1 == k) = none := by
      cases hf : m.find? (fun q => q.1 == k) with
      | none => rfl
      | some p => rw [hf] at hc; simp at hc
    have hnotin : k ∉ mapKeys m := by
      intro hin
      rcases List.mem_map.mp hin with ⟨p, hp, he⟩
      have := List.find?_eq_none.mp hnone p hp
      simp [he] at this
    unfold mapKeys
    rw [List.map_append]
    simp only [List.map_cons, List.map_nil]
    rw [List.nodup_append]
    refine ⟨hnd, List.nodup_singleton k, ?_⟩
    intro a ha hb
    rcases List.mem_singleton.mp hb with rfl
    exact hnotin ha

/-! ## Invariants of the collection walk -/

theorem seenStep_inv {names : List Bytes}
    {seen : List (Bytes × BibliographyItem)} {dt : Bytes × CitationType}
    (h : SeenInv names seen) : SeenInv names (seenStep names seen dt) := by
  unfold seenStep
  split
  · exact h
  · split
    · exact h
    · next h1 _ =>
      refine ⟨mapKeys_nodup_mapSet h.1, ?_⟩
      intro p hp
      rcases mem_mapSet hp with rfl | hp'
      · refine ⟨rfl, ?_, rfl, rfl⟩
        simp only [Bool.not_eq_true] at h1
        exact h1
      · exact h.2 p hp'

theorem foldl_seenStep_inv {names : List Bytes} :
    ∀ (dests : List (Bytes × CitationType)) (seen), SeenInv names seen →
      SeenInv names (dests.foldl (seenStep names) seen)
  | [], _, h => h
  | _ :: dests, _, h => foldl_seenStep_inv dests _ (seenStep_inv h)

theorem collectNode_inv {names : List Bytes}
    {st : List (Bytes × BibliographyItem) × List (Bytes × Bytes)} {n : Node}
    (h : SeenInv names st.1) : SeenInv names (collectNode names st n).1 := by
  unfold collectNode
  split
  · exact foldl_seenStep_inv _ st.1 h
  · split
    · exact h
    · exact h
  · exact h

theorem foldl_collectNode_inv {names : List Bytes} :
    ∀ (ns : List Node) (st), SeenInv names st.1 →
      SeenInv names ((ns.foldl (collectNode names) st).1)
  | [], _, h => h
  | _ :: ns, _, h => foldl_collectNode_inv ns _ (collectNode_inv h)

theorem collect_inv (doc : Node) :
    SeenInv (collectNames doc) (collect doc).1 := by
  unfold collect
  exact foldl_collectNode_inv (preorder doc) ([], [])
    ⟨List.nodup_nil, by intro p hp; cases hp⟩

/-! ## Lemmas about `enrich` and the assembler -/

theorem enrich_anchor (dec : Bytes → Option Reference)
    (raw : List (Bytes × Bytes)) (r : BibliographyItem) :
    ((enrich dec raw r).1).anchor = r.anchor := by
  unfold enrich
  split
  · split
    · rfl
    · rfl
  · rfl

theorem enrich_type (dec : Bytes → Option Reference)
    (raw : List (Bytes × Bytes)) (r : BibliographyItem) :
    ((enrich dec raw r).1).type = r.type := by
  unfold enrich
  split
  · split
    · rfl
    · rfl
  · rfl

theorem enrich_diags (dec : Bytes → Option Reference)
    (raw : List (Bytes × Bytes)) (r : BibliographyItem) :
    ∀ d ∈ (enrich dec raw r).2, d = Diag.unmarshalFailed r.anchor := by
  unfold enrich
  split
  · split
    · intro d hd; simpa using hd
    · intro d hd; cases hd
  · intro d hd; cases hd

theorem itemsOf_appendBib (g : Option Bib) (t : CitationType)
    (r : BibliographyItem) : itemsOf (appendBib g t r) = itemsOf g ++ [r] := by
  cases g with
  | none => rfl
  | some b => rfl

theorem appendBib_isSome (g : Option Bib) (t : CitationType)
    (r : BibliographyItem) : (appendBib g t r).isSome = true := by
  cases g with
  | none => rfl
  | some b => rfl

theorem appendBib_arm {t : CitationType} {P : BibliographyItem → Prop}
    {g : Option Bib} (hg : ∀ b, g = some b → b.type = t ∧ ∀ it ∈ b.items, P it)
    (r : BibliographyItem) (hr : P r) :
    ∀ b, appendBib g t r = some b → b.type = t ∧ ∀ it ∈ b.items, P it := by
  cases g with
  | none =>
    intro b hb
    simp only [appendBib, Option.some.injEq] at hb
    subst hb
    refine ⟨rfl, ?_⟩
    intro it hit
    rcases List.mem_singleton.mp hit with rfl
    exact hr
  | some b0 =>
    intro b hb
    simp only [appendBib, Option.some.injEq] at hb
    subst hb
    have h0 := hg b0 rfl
    refine ⟨h0.1, ?_⟩
    intro it hit
    rcases List.mem_append.mp hit with hit | hit
    · exact h0.2 it hit
    · rcases List.mem_singleton.mp hit with rfl
      exact hr

theorem assembleStep_fromSeen {dec : Bytes → Option Reference}
    {seen : List (Bytes × BibliographyItem)} {raw : List (Bytes × Bytes)}
    {st : BibState} {k : Bytes} (h : FromSeen dec seen raw st) :
    FromSeen dec seen raw (assembleStep dec seen raw st k) := by
  unfold assembleStep
  split
  · exact h
  · next r0 hg =>
    have hmem : (k, r0) ∈ seen := mem_of_mapGet_eq_some hg
    have hprov : ∃ p ∈ seen, (enrich dec raw r0).1 = (enrich dec raw p.2).1 :=
      ⟨(k, r0), hmem, rfl⟩
    have hdiag : ∀ d ∈ st.diags ++ (enrich dec raw r0).2,
        ∃ a, d = Diag.unmarshalFailed a := by
      intro d hd
      rcases List.mem_append.mp hd with hd | hd
      · exact h.2.2 d hd
      · exact ⟨r0.anchor, enrich_diags dec raw r0 d hd⟩
    split
    · next ht =>
      exact ⟨h.1, appendBib_arm h.2.1 _ ⟨hprov, Or.inl ht⟩, hdiag⟩
    · next ht =>
      exact ⟨h.1, appendBib_arm h.2.1 _ ⟨hprov, Or.inr ht⟩, hdiag⟩
    · next ht =>
      exact ⟨appendBib_arm h.1 _ ⟨hprov, ht⟩, h.2.1, hdiag⟩

theorem foldl_assembleStep_fromSeen {dec : Bytes → Option Reference}
    {seen : List (Bytes × BibliographyItem)} {raw : List (Bytes × Bytes)} :
    ∀ (ks : List Bytes) (st), FromSeen dec seen raw st →
      FromSeen dec seen raw (ks.foldl (assembleStep dec seen raw) st)
  | [], _, h => h
  | _ :: ks, _, h => foldl_assembleStep_fromSeen ks _ (assembleStep_fromSeen h)

theorem assemble_fromSeen (dec : Bytes → Option Reference)
    (seen : List (Bytes × BibliographyItem)) (raw : List (Bytes × Bytes)) :
    FromSeen dec seen raw (assemble dec seen raw) := by
  unfold assemble
  apply foldl_assembleStep_fromSeen
  refine ⟨?_, ?_, ?_⟩
  · intro b hb; cases hb
  · intro b hb; cases hb
  · intro d hd; cases hd

theorem allItems_assembleStep_mono {dec : Bytes → Option Reference}
    {seen : List (Bytes × BibliographyItem)} {raw : List (Bytes × Bytes)}
    {st : BibState} {k : Bytes} {it : BibliographyItem}
    (h : it ∈ allItems st) : it ∈ allItems (assembleStep dec seen raw st k) := by
  unfold assembleStep
  split
  · exact h
  · rcases List.mem_append.mp h with h1 | h1
    · split
      · exact List.mem_append.mpr (Or.inl h1)
      · exact List.mem_append.mpr (Or.inl h1)
      · refine List.mem_append.mpr (Or.inl ?_)
        rw [itemsOf_appendBib]
        exact List.mem_append.mpr (Or.inl h1)
    · split
      · refine List.mem_append.mpr (Or.inr ?_)
        rw [itemsOf_appendBib]
        exact List.mem_append.mpr (Or.inl h1)
      · refine List.mem_append.mpr (Or.inr ?_)
        rw [itemsOf_appendBib]
        exact List.mem_append.mpr (Or.inl h1)
      · exact List.mem_append.mpr (Or.inr h1)

theorem diags_assembleStep_mono {dec : Bytes → Option Reference}
    {seen : List (Bytes × BibliographyItem)} {raw : List (Bytes × Bytes)}
    {st : BibState} {k : Bytes} {d : Diag}
    (h : d ∈ st.diags) : d ∈ (assembleStep dec seen raw st k).diags := by
  unfold assembleStep
  split
  · exact h
  · split
    · exact List.mem_append.mpr (Or.inl h)
    · exact List.mem_append.mpr (Or.inl h)
    · exact List.mem_append.mpr (Or.inl h)

theorem allItems_foldl_mono {dec : Bytes → Option Reference}
    {seen : List (Bytes × BibliographyItem)} {raw : List (Bytes × Bytes)}
    {it : BibliographyItem} :
    ∀ (ks : List Bytes) (st), it ∈ allItems st →
      it ∈ allItems (ks.foldl (assembleStep dec seen raw) st)
  | [], _, h => h
  | _ :: ks, _, h => allItems_foldl_mono ks _ (allItems_assembleStep_mono h)

theorem diags_foldl_mono {dec : Bytes → Option Reference}
    {seen : List (Bytes × BibliographyItem)} {raw : List (Bytes × Bytes)}
    {d : Diag} :
    ∀ (ks : List Bytes) (st), d ∈ st.diags →
      d ∈ (ks.foldl (assembleStep dec seen raw) st).diags
  | [], _, h => h
  | _ :: ks, _, h => diags_foldl_mono ks _ (diags_assembleStep_mono h)

theorem assembleStep_processes {dec : Bytes → Option Reference}
    {seen : List (Bytes × BibliographyItem)} {raw : List (Bytes × Bytes)}
    {st : BibState} {k : Bytes} {r : BibliographyItem}
    (hg : mapGet seen k = some r) :
    (enrich dec raw r).1 ∈ allItems (assembleStep dec seen raw st k) ∧
      ∀ d ∈ (enrich dec raw r).2, d ∈ (assembleStep dec seen raw st k).diags := by
  unfold assembleStep
  split
  · next heq => rw [hg] at heq; cases heq
  · next r0 heq =>
    rw [hg] at heq
    injection heq with heq2
    subst heq2
    split
    · refine ⟨?_, ?_⟩
      · show (enrich dec raw r).1 ∈ itemsOf st.normative ++
          itemsOf (appendBib st.informative .informative (enrich dec raw r).1)
        rw [itemsOf_appendBib]
        exact List.mem_append.mpr (Or.inr (List.mem_append.mpr
          (Or.inr (List.mem_singleton.mpr rfl))))
      · intro d hd
        show d ∈ st.diags ++ (enrich dec raw r).2
        exact List.mem_append.mpr (Or.inr hd)
    · refine ⟨?_, ?_⟩
      · show (enrich dec raw r).1 ∈ itemsOf st.normative ++
          itemsOf (appendBib st.informative .informative (enrich dec raw r).1)
        rw [itemsOf_appendBib]
        exact List.mem_append.mpr (Or.inr (List.mem_append.mpr
          (Or.inr (List.mem_singleton.mpr rfl))))
      · intro d hd
        show d ∈ st.diags ++ (enrich dec raw r).2
        exact List.mem_append.mpr (Or.inr hd)
    · refine ⟨?_, ?_⟩
      · show (enrich dec raw r).1 ∈
          itemsOf (appendBib st.normative .normative (enrich dec raw r).1) ++
          itemsOf st.informative
        rw [itemsOf_appendBib]
        exact List.mem_append.mpr (Or.inl (List.mem_append.mpr
          (Or.inr (List.mem_singleton.mpr rfl))))
      · intro d hd
        show d ∈ st.diags ++ (enrich dec raw r).2
        exact List.mem_append.mpr (Or.inr hd)

theorem foldl_processes {dec : Bytes → Option Reference}
    {seen : List (Bytes × BibliographyItem)} {raw : List (Bytes × Bytes)}
    {k : Bytes} {r : BibliographyItem} :
    ∀ (ks : List Bytes) (st), k ∈ ks → mapGet seen k = some r →
      (enrich dec raw r).1 ∈ allItems (ks.foldl (assembleStep dec seen raw) st) ∧
      ∀ d ∈ (enrich dec raw r).2,
        d ∈ (ks.foldl (assembleStep dec seen raw) st).diags := by
  intro ks
  induction ks with
  | nil => intro st hk; cases hk
  | cons x ks ih =>
    intro st hk hg
    rcases List.mem_cons.mp hk with rfl | hk'
    · have hstep := @assembleStep_processes dec seen raw st _ _ hg
      exact ⟨allItems_foldl_mono ks _ hstep.1,
        fun d hd => diags_foldl_mono ks _ (hstep.2 d hd)⟩
    · exact ih _ hk' hg

theorem assembleStep_anchors {dec : Bytes → Option Reference}
    {seen : List (Bytes × BibliographyItem)} {raw : List (Bytes × Bytes)}
    {st : BibState} {k : Bytes}
    (hkey : ∀ p ∈ seen, p.1 = p.2.anchor) :
    ((itemsOf (assembleStep dec seen raw st k).normative).map
        BibliographyItem.anchor =
        (itemsOf st.normative).map BibliographyItem.anchor ∨
      (itemsOf (assembleStep dec seen raw st k).normative).map
        BibliographyItem.anchor =
        (itemsOf st.normative).map BibliographyItem.anchor ++ [k]) ∧
    ((itemsOf (assembleStep dec seen raw st k).informative).map
        BibliographyItem.anchor =
        (itemsOf st.informative).map BibliographyItem.anchor ∨
      (itemsOf (assembleStep dec seen raw st k).informative).map
        BibliographyItem.anchor =
        (itemsOf st.informative).map BibliographyItem.anchor ++ [k]) := by
  unfold assembleStep
  split
  · exact ⟨Or.inl rfl, Or.inl rfl⟩
  · next r0 heq =>
    have hanch : ((enrich dec raw r0).1).anchor = k := by
      rw [enrich_anchor]
      exact (hkey _ (mem_of_mapGet_eq_some heq)).symm
    split
    · refine ⟨Or.inl rfl, Or.inr ?_⟩
      show (itemsOf (appendBib st.informative .informative
        (enrich dec raw r0).1)).map BibliographyItem.anchor = _
      rw [itemsOf_appendBib, List.map_append]
      simp [hanch]
    · refine ⟨Or.inl rfl, Or.inr ?_⟩
      show (itemsOf (appendBib st.informative .informative
        (enrich dec raw r0).1)).map BibliographyItem.anchor = _
      rw [itemsOf_appendBib, List.map_append]
      simp [hanch]
    · refine ⟨Or.inr ?_, Or.inl rfl⟩
      show (itemsOf (appendBib st.normative .normative
        (enrich dec raw r0).1)).map BibliographyItem.anchor = _
      rw [itemsOf_appendBib, List.map_append]
      simp [hanch]

theorem anchors_foldl_sublist {dec : Bytes → Option Reference}
    {seen : List (Bytes × BibliographyItem)} {raw : List (Bytes × Bytes)}
    (hkey : ∀ p ∈ seen, p.1 = p.2.anchor) :
    ∀ (ks : List Bytes) (st),
      List.Sublist
        ((itemsOf ((ks.foldl (assembleStep dec seen raw) st).normative)).map
          BibliographyItem.anchor)
        (((itemsOf st.normative).map BibliographyItem.anchor) ++ ks) ∧
      List.Sublist
        ((itemsOf ((ks.foldl (assembleStep dec seen raw) st).informative)).map
          BibliographyItem.anchor)
        (((itemsOf st.informative).map BibliographyItem.anchor) ++ ks) := by
  intro ks
  induction ks with
  | nil =>
    intro st
    refine ⟨?_, ?_⟩
    · rw [List.append_nil]
      exact List.Sublist.refl _
    · rw [List.append_nil]
      exact List.Sublist.refl _
  | cons k ks ih =>
    intro st
    have h1 := @assembleStep_anchors dec seen raw st k hkey
    have h2 := ih (assembleStep dec seen raw st k)
    rw [List.foldl_cons]
    refine ⟨?_, ?_⟩
    · rcases h1.1 with he | he
      · refine h2.1.trans ?_
        rw [he]
        exact List.Sublist.append_left (List.sublist_cons_self k ks) _
      · refine h2.1.trans ?_
        rw [he, List.append_assoc]
        exact List.Sublist.refl _
    · rcases h1.2 with he | he
      · refine h2.2.trans ?_
        rw [he]
        exact List.Sublist.append_left (List.sublist_cons_self k ks) _
      · refine h2.2.trans ?_
        rw [he, List.append_assoc]
        exact List.Sublist.refl _

theorem assemble_anchors_sorted {dec : Bytes → Option Reference}
    {seen : List (Bytes × BibliographyItem)} {raw : List (Bytes × Bytes)}
    (hkey : ∀ p ∈ seen, p.1 = p.2.anchor) :
    List.Sorted LexLe
      ((itemsOf (assemble dec seen raw).normative).map BibliographyItem.anchor) ∧
    List.Sorted LexLe
      ((itemsOf (assemble dec seen raw).informative).map BibliographyItem.anchor) := by
  have hs := @anchors_foldl_sublist dec seen raw hkey (sortStrings (mapKeys seen)) {}
  have hsorted := sortStrings_sorted (mapKeys seen)
  refine ⟨?_, ?_⟩
  · exact hsorted.sublist (by simpa using hs.1)
  · exact hsorted.sublist (by simpa using hs.2)

/-! ## Lemmas about the back-matter locator and splicer -/

mutual

theorem append_of_nbm_none (extra : List Node) :
    ∀ n : Node, NodeBackMatter n = none → appendAtBackMatter n extra = (n, false)
  | .mk k cs, h => by
    rw [NodeBackMatter] at h
    rw [appendAtBackMatter]
    by_cases hb : isBackMatter (.mk k cs) = true
    · rw [if_pos hb] at h
      cases h
    · rw [if_neg hb] at h
      rw [if_neg hb]
      rw [appendL_of_nbmL_none extra cs h]

theorem appendL_of_nbmL_none (extra : List Node) :
    ∀ ns : List Node, NodeBackMatterL ns = none →
      appendAtBackMatterL ns extra = (ns, false)
  | [], _ => rfl
  | n :: ns, h => by
    rw [NodeBackMatterL] at h
    rw [appendAtBackMatterL]
    cases hn : NodeBackMatter n with
    | some b => rw [hn] at h; cases h
    | none =>
      rw [hn] at h
      rw [append_of_nbm_none extra n hn, appendL_of_nbmL_none extra ns h]
      simp

end

mutual

theorem append_of_nbm_some (extra : List Node) :
    ∀ (n : Node) (b : Node), NodeBackMatter n = some b →
      (appendAtBackMatter n extra).2 = true ∧
      NodeBackMatter (appendAtBackMatter n extra).1 =
        some (.mk b.kind (b.kids ++ extra))
  | .mk k cs, b, h => by
    rw [NodeBackMatter] at h
    rw [appendAtBackMatter]
    by_cases hb : isBackMatter (.mk k cs) = true
    · rw [if_pos hb] at h
      injection h with h
      subst h
      rw [if_pos hb]
      refine ⟨rfl, ?_⟩
      rw [NodeBackMatter]
      rw [if_pos (by simpa [isBackMatter, Node.kind] using hb)]
      rfl
    · rw [if_neg hb] at h
      rw [if_neg hb]
      have hl := appendL_of_nbmL_some extra cs b h
      refine ⟨hl.1, ?_⟩
      rw [NodeBackMatter]
      rw [if_neg (by simpa [isBackMatter, Node.kind] using hb)]
      exact hl.2

theorem appendL_of_nbmL_some (extra : List Node) :
    ∀ (ns : List Node) (b : Node), NodeBackMatterL ns = some b →
      (appendAtBackMatterL ns extra).2 = true ∧
      NodeBackMatterL (appendAtBackMatterL ns extra).1 =
        some (.mk b.kind (b.kids ++ extra))
  | [], b, h => by cases h
  | n :: ns, b, h => by
    rw [NodeBackMatterL] at h
    rw [appendAtBackMatterL]
    cases hn : NodeBackMatter n with
    | some b0 =>
      rw [hn] at h
      have hb : b0 = b := by injection h
      subst hb
      have hr := append_of_nbm_some extra n b0 hn
      rw [if_pos hr.1]
      refine ⟨rfl, ?_⟩
      show (match NodeBackMatter (appendAtBackMatter n extra).1 with
        | some b1 => some b1
        | none => NodeBackMatterL ns) =
        some (.mk b0.kind (b0.kids ++ extra))
      rw [hr.2]
    | none =>
      rw [hn] at h
      rw [append_of_nbm_none extra n hn]
      have hr := appendL_of_nbmL_some extra ns b h
      simp only [Bool.false_eq_true, if_false]
      refine ⟨hr.1, ?_⟩
      show (match NodeBackMatter n with
        | some b1 => some b1
        | none => NodeBackMatterL (appendAtBackMatterL ns extra).1) =
        some (.mk b.kind (b.kids ++ extra))
      rw [hn]
      exact hr.2

end

/-! ## Remaining helper lemmas -/

theorem any_eqFold_false {names : List Bytes} {a : Bytes}
    (h : (names.any fun nm => eqFold nm a) = false) :
    ∀ nm ∈ names, eqFold nm a = false := by
  intro nm hnm
  cases he : eqFold nm a
  · rfl
  · have : (names.any fun nm => eqFold nm a) = true :=
      List.any_eq_true.mpr ⟨nm, hnm, he⟩
    rw [h] at this
    cases this

theorem ctb_diags_shape (dec : Bytes → Option Reference) (doc : Node) :
    ∀ d ∈ (CitationToBibliography dec doc).diags, ∃ a, d = Diag.unmarshalFailed a := by
  unfold CitationToBibliography
  exact (assemble_fromSeen dec (collect doc).1 (collect doc).2).2.2

/-! ## The claims -/

/-- C1: the spec claims anchors are deduplicated case-insensitively, keyed by
the first-encountered spelling, first kind winning.  The code checks presence
under the lower-cased key but stores under the case-preserved key, so two
normative citations whose anchors `X` and `x` differ only in letter case
produce TWO bibliography items, not one. -/
theorem CitationToBibliography_dedup_misses_case_differing_anchors :
    ((itemsOf (CitationToBibliography decNone docCase).normative).map
      BibliographyItem.anchor) = [strB "X", strB "x"] ∧
    strB "X" ≠ strB "x" ∧ toLowerB (strB "X") = toLowerB (strB "x") := by
  decide

/-- C2: the spec claims `IsReference` returns `matched=false` whenever no
closing marker is found.  The guard `end > len(data) || end == 0` does not
catch the not-found value `-1` of `bytes.Index`, so on a buffer with an
opener but no closing marker the code returns `matched=true` with a
`2*len(typ)-1`-byte prefix. -/
theorem IsReference_missing_closer_reports_match :
    IsReference noCloser = some (some (strB "<reference a>aaaaaaaaaa")) ∧
    IsReference noCloser ≠ some none := by
  decide

/-- C4: the spec claims no operation of the core can crash.  On the 12-byte
buffer `"<reference >"` (opener present, no closing marker), `IsReference`
evaluates `data[:end+2*len(typ)]` with `end = -1`, i.e. `data[:23]` on a
12-byte slice: an out-of-range slice panic (`none` in the model). -/
theorem IsReference_panics_on_short_buffer : IsReference shortRef = none := by
  decide

/-- C6: within each returned group, the bibliography items appear in
ascending case-sensitive lexicographic order of their case-preserved anchors
(the assembler iterates the `sort.Strings`-sorted key list, and the stored
key always equals the case-preserved anchor).  The model is a pure function
of the tree, so the output — structure and ordering — is identical across
runs on identical input. -/
theorem CitationToBibliography_groups_sorted_by_anchor
    (dec : Bytes → Option Reference) (doc : Node) :
    List.Sorted LexLe
      ((itemsOf (CitationToBibliography dec doc).normative).map
        BibliographyItem.anchor) ∧
    List.Sorted LexLe
      ((itemsOf (CitationToBibliography dec doc).informative).map
        BibliographyItem.anchor) := by
  have hinv := collect_inv doc
  unfold CitationToBibliography
  exact assemble_anchors_sorted (fun p hp => (hinv.2 p hp).1)

/-- C7 counterexample: the claim says each resulting item carries the
collapsed kind in {Normative, Informative}.  A suppressed citation produces
an item whose kind attribute is still Suppressed (only the containing group
carries the collapsed kind). -/
theorem suppressed_item_kind_not_collapsed :
    (itemsOf (CitationToBibliography decNone docSupp).informative).map
      BibliographyItem.type = [CitationType.suppressed] ∧
    CitationType.suppressed ≠ CitationType.normative ∧
    CitationType.suppressed ≠ CitationType.informative := by
  decide

/-- C7 (amended): classification is total and exclusive — suppressed and
informative citations land in the informative group, normative citations in
the normative group, never crossed; each group node carries the collapsed
kind in {Normative, Informative}; each ITEM keeps the original citation kind
(Suppressed is preserved on the item, not collapsed). -/
theorem CitationToBibliography_classification
    (dec : Bytes → Option Reference) (doc : Node) :
    (∀ b, (CitationToBibliography dec doc).normative = some b →
      b.type = .normative ∧ ∀ it ∈ b.items, it.type = .normative) ∧
    (∀ b, (CitationToBibliography dec doc).informative = some b →
      b.type = .informative ∧
      ∀ it ∈ b.items, it.type = .suppressed ∨ it.type = .informative) := by
  have hfs := assemble_fromSeen dec (collect doc).1 (collect doc).2
  unfold CitationToBibliography
  constructor
  · intro b hb
    exact ⟨(hfs.1 b hb).1, fun it hit => ((hfs.1 b hb).2 it hit).2⟩
  · intro b hb
    exact ⟨(hfs.2.1 b hb).1, fun it hit => ((hfs.2.1 b hb).2 it hit).2⟩

/-- C7 witness: the amended classification evaluated on a document with one
suppressed and one normative citation. -/
theorem CitationToBibliography_classification_witness :
    ((CitationToBibliography decNone docSuppNorm).informative = some bibSW) ∧
    (bibSW.type = .informative ∧
      ∀ it ∈ bibSW.items, it.type = .suppressed ∨ it.type = .informative) :=
  ⟨by decide,
   (CitationToBibliography_classification decNone docSuppNorm).2 bibSW (by decide)⟩

/-- C8: a citation whose destination anchor fold-matches any author or
contact full name extracted from the first title node never appears as an
item in either bibliography group: every emitted item has an anchor that
fold-matches none of the extracted names. -/
theorem CitationToBibliography_self_reference_suppression
    (dec : Bytes → Option Reference) (doc : Node) (it : BibliographyItem)
    (hit : it ∈ allItems (CitationToBibliography dec doc)) :
    ∀ nm ∈ collectNames doc, eqFold nm it.anchor = false := by
  have hinv := collect_inv doc
  have hfs := assemble_fromSeen dec (collect doc).1 (collect doc).2
  unfold CitationToBibliography allItems at hit
  rcases List.mem_append.mp hit with h1 | h1
  · cases hg : (assemble dec (collect doc).1 (collect doc).2).normative with
    | none => rw [hg] at h1; cases h1
    | some b =>
      rw [hg] at h1
      rcases ((hfs.1 b hg).2 it h1).1 with ⟨p, hp, he⟩
      have hanch : it.anchor = p.2.anchor := by rw [he, enrich_anchor]
      rw [hanch]
      exact any_eqFold_false (hinv.2 p hp).2.1
  · cases hg : (assemble dec (collect doc).1 (collect doc).2).informative with
    | none => rw [hg] at h1; cases h1
    | some b =>
      rw [hg] at h1
      rcases ((hfs.2.1 b hg).2 it h1).1 with ⟨p, hp, he⟩
      have hanch : it.anchor = p.2.anchor := by rw [he, enrich_anchor]
      rw [hanch]
      exact any_eqFold_false (hinv.2 p hp).2.1

/-- C8 witness: on a document whose title names author `John Doe`, the
surviving item `A` fold-matches no extracted name. -/
theorem CitationToBibliography_self_reference_suppression_witness :
    (itA ∈ allItems (CitationToBibliography decNone docSelf)) ∧
    (strB "John Doe" ∈ collectNames docSelf) ∧
    eqFold (strB "John Doe") itA.anchor = false :=
  ⟨by decide, by decide,
   CitationToBibliography_self_reference_suppression decNone docSelf itA
     (by decide) (strB "John Doe") (by decide)⟩

/-- C5: every collected citation whose anchor has a matching raw reference
block that fails the structured decode still yields a bibliography item (the
anchor is never dropped) carrying the raw bytes verbatim as its
`ReferenceGroup` fallback and no decoded record, and a diagnostic naming the
anchor is logged. -/
theorem CitationToBibliography_decode_failure_keeps_anchor
    (dec : Bytes → Option Reference) (doc : Node) (k : Bytes)
    (r : BibliographyItem) (rb : Bytes)
    (hmem : (k, r) ∈ (collect doc).1)
    (hraw : mapGet (collect doc).2 (toLowerB r.anchor) = some rb)
    (hdec : dec rb = none) :
    (∃ it ∈ allItems (CitationToBibliography dec doc),
      it.anchor = r.anchor ∧ it.referenceGroup = some rb ∧
      it.reference = none) ∧
    Diag.unmarshalFailed r.anchor ∈ (CitationToBibliography dec doc).diags := by
  have hinv := collect_inv doc
  have hkr : k = r.anchor := (hinv.2 _ hmem).1
  have hrefnone : r.reference = none := (hinv.2 _ hmem).2.2.1
  have hget : mapGet (collect doc).1 k = some r :=
    mapGet_eq_some_of_mem hinv.1 hmem
  have hkin : k ∈ mapKeys (collect doc).1 := List.mem_map_of_mem (·.1) hmem
  have hks : k ∈ sortStrings (mapKeys (collect doc).1) := mem_sortStrings hkin
  have hfold := @foldl_processes dec (collect doc).1 (collect doc).2 k r
    (sortStrings (mapKeys (collect doc).1)) {} hks hget
  have he : enrich dec (collect doc).2 r =
      ({ r with referenceGroup := some rb }, [Diag.unmarshalFailed r.anchor]) := by
    simp [enrich, hraw, hdec]
  unfold CitationToBibliography assemble
  constructor
  · refine ⟨(enrich dec (collect doc).2 r).1, hfold.1, ?_, ?_, ?_⟩
    · rw [he]
    · rw [he]
    · rw [he]
      exact hrefnone
  · apply hfold.2
    rw [he]
    exact List.mem_singleton.mpr rfl

/-- C5 witness: the malformed raw block for anchor `B` of `docBad` is kept
verbatim as the fallback payload and a diagnostic is logged. -/
theorem CitationToBibliography_decode_failure_keeps_anchor_witness :
    ((strB "B", itB0) ∈ (collect docBad).1) ∧
    (mapGet (collect docBad).2 (toLowerB itB0.anchor) = some rawB) ∧
    (decNone rawB = none) ∧
    ((∃ it ∈ allItems (CitationToBibliography decNone docBad),
      it.anchor = itB0.anchor ∧ it.referenceGroup = some rawB ∧
      it.reference = none) ∧
    Diag.unmarshalFailed itB0.anchor ∈
      (CitationToBibliography decNone docBad).diags) :=
  ⟨by decide, by decide, rfl,
   CitationToBibliography_decode_failure_keeps_anchor decNone docBad
     (strB "B") itB0 rawB (by decide) (by decide) rfl⟩

/-- C9 counterexample: the claim says the literal attribute of the created
node is the exact source text of the declaration, unparsed.  With a decoder
that succeeds and a re-encoder producing a canonical form, the hook stores
the re-encoded bytes, not the source text. -/
theorem ReferenceHook_literal_not_source_text :
    ReferenceHook decAll marCanon goodRef =
      some (some (strB "CANON"), goodRef.length) ∧
    strB "CANON" ≠ goodRef := by
  decide

/-- C9 (amended): for every recognized span the literal attribute is
`fmtReference` of the span: the canonical reserialization when decode and
re-encode succeed, and the original span bytes unchanged when the decode (or
the re-encode) fails. -/
theorem ReferenceHook_literal_is_fmtReference
    (dec : Bytes → Option Reference) (mar : Reference → Option Bytes)
    (data ref : Bytes) (h : IsReference data = some (some ref)) :
    ReferenceHook dec mar data =
      some (some (fmtReference dec mar ref), ref.length) ∧
    (dec ref = none → fmtReference dec mar ref = ref) ∧
    (∀ x, dec ref = some x → mar x = none → fmtReference dec mar ref = ref) ∧
    (∀ x out, dec ref = some x → mar x = some out →
      fmtReference dec mar ref = out) := by
  refine ⟨?_, ?_, ?_, ?_⟩
  · unfold ReferenceHook
    rw [h]
  · intro hd
    unfold fmtReference
    rw [hd]
  · intro x hd hm
    simp [fmtReference, hd, hm]
  · intro x out hd hm
    simp [fmtReference, hd, hm]

/-- C9 witness: on a recognized span with a failing decoder, the stored
literal is the original span. -/
theorem ReferenceHook_literal_is_fmtReference_witness :
    (IsReference goodRef = some (some goodRef)) ∧
    ReferenceHook decNone marCanon goodRef =
      some (some (fmtReference decNone marCanon goodRef), goodRef.length) ∧
    fmtReference decNone marCanon goodRef = goodRef :=
  ⟨by decide,
   (ReferenceHook_literal_is_fmtReference decNone marCanon goodRef goodRef
     (by decide)).1,
   (ReferenceHook_literal_is_fmtReference decNone marCanon goodRef goodRef
     (by decide)).2.1 rfl⟩

/-- C10: when the span starts with a reference opener and the first
`anchor=` token has at least one byte after it, that single byte — whatever
it is — serves as the delimiter: the result is exactly the bytes strictly
between it and its next occurrence, and `none` when it never recurs. -/
theorem anchorFromReference_delimiter_spec (data : Bytes) (a : Nat)
    (hpre : refOpen.isPrefixOf data = true ∨ refGroupOpen.isPrefixOf data = true)
    (hfind : firstSublistIdx anchorAttr data = some a)
    (hlen : a + 7 < data.length) :
    anchorFromReference data =
      if data.getD (a + 7) 0 ∈ data.drop (a + 8) then
        some ((data.drop (a + 8)).takeWhile (fun b => b ≠ data.getD (a + 7) 0))
      else none := by
  have hguard : (!(refOpen.isPrefixOf data) && !(refGroupOpen.isPrefixOf data))
      = false := by
    rcases hpre with h | h <;> simp [h]
  unfold anchorFromReference
  rw [hguard]
  simp only [Bool.false_eq_true, if_false, hfind]
  rw [if_neg (by omega : ¬ a + 7 ≥ data.length)]
  simp only [show a + 7 + 1 = a + 8 from rfl]
  have hdroplen : (data.drop (a + 8)).length = data.length - (a + 8) :=
    List.length_drop (a + 8) data
  by_cases hq : data.getD (a + 7) 0 ∈ data.drop (a + 8)
  · rw [if_pos hq]
    have hlt := takeWhile_length_lt_of_mem hq
    rw [if_neg (by omega : ¬ a + 8 +
      ((data.drop (a + 8)).takeWhile
        (fun b => b ≠ data.getD (a + 7) 0)).length ≥ data.length)]
    have harith : a + 8 +
        ((data.drop (a + 8)).takeWhile
          (fun b => b ≠ data.getD (a + 7) 0)).length - (a + 8) =
        ((data.drop (a + 8)).takeWhile
          (fun b => b ≠ data.getD (a + 7) 0)).length := by omega
    rw [harith]
    rw [take_takeWhile_length]
  · rw [if_neg hq]
    have heqw := takeWhile_eq_self_of_not_mem hq
    have hwlen : ((data.drop (a + 8)).takeWhile
        (fun b => b ≠ data.getD (a + 7) 0)).length =
        data.length - (a + 8) := by rw [heqw, hdroplen]
    rw [if_pos (by omega : a + 8 +
      ((data.drop (a + 8)).takeWhile
        (fun b => b ≠ data.getD (a + 7) 0)).length ≥ data.length)]

/-- C10 witness: the characterization evaluated on a span with a quoted
anchor value `X`. -/
theorem anchorFromReference_delimiter_spec_witness :
    (refOpen.isPrefixOf anchECase = true ∨
      refGroupOpen.isPrefixOf anchECase = true) ∧
    (firstSublistIdx anchorAttr anchECase = some 11) ∧
    (11 + 7 < anchECase.length) ∧
    anchorFromReference anchECase =
      (if anchECase.getD (11 + 7) 0 ∈ anchECase.drop (11 + 8) then
        some ((anchECase.drop (11 + 8)).takeWhile
          (fun b => b ≠ anchECase.getD (11 + 7) 0))
      else none) :=
  ⟨Or.inl (by decide), by decide, by decide,
   anchorFromReference_delimiter_spec anchECase 11 (Or.inl (by decide))
     (by decide) (by decide)⟩

/-- C3: the `AddBibliography` contract.  With no back-matter node the tree is
returned unmodified, the result is `false`, and the missing-back-matter
diagnostic is emitted exactly when a non-empty bibliography existed.  With a
back-matter node, the returned flag is true iff some group is non-empty, and
the children appended to the back-matter node are: a wrapper containing the
normative then the informative group when both exist; the single non-empty
group directly otherwise; nothing when both are empty. -/
theorem AddBibliography_contract (dec : Bytes → Option Reference) (doc : Node) :
    (NodeBackMatter doc = none →
      (AddBibliography dec doc).1 = doc ∧
      (AddBibliography dec doc).2.1 = false ∧
      (Diag.noBackMatter ∈ (AddBibliography dec doc).2.2 ↔
        ((CitationToBibliography dec doc).normative.isSome ||
          (CitationToBibliography dec doc).informative.isSome) = true)) ∧
    (∀ b, NodeBackMatter doc = some b →
      (AddBibliography dec doc).2.1 =
        ((CitationToBibliography dec doc).normative.isSome ||
          (CitationToBibliography dec doc).informative.isSome) ∧
      (∀ nb ib, (CitationToBibliography dec doc).normative = some nb →
        (CitationToBibliography dec doc).informative = some ib →
        backMatterKids (AddBibliography dec doc).1 =
          some (b.kids ++
            [Node.mk .bibliographyWrapper [bibNode nb, bibNode ib]])) ∧
      (∀ nb, (CitationToBibliography dec doc).normative = some nb →
        (CitationToBibliography dec doc).informative = none →
        backMatterKids (AddBibliography dec doc).1 =
          some (b.kids ++ [bibNode nb])) ∧
      (∀ ib, (CitationToBibliography dec doc).normative = none →
        (CitationToBibliography dec doc).informative = some ib →
        backMatterKids (AddBibliography dec doc).1 =
          some (b.kids ++ [bibNode ib])) ∧
      ((CitationToBibliography dec doc).normative = none →
        (CitationToBibliography dec doc).informative = none →
        backMatterKids (AddBibliography dec doc).1 = some b.kids ∧
        (AddBibliography dec doc).2.1 = false)) := by
  constructor
  · intro hm
    refine ⟨?_, ?_, ?_⟩
    · simp only [AddBibliography, hm]
    · simp only [AddBibliography, hm]
    · simp only [AddBibliography, hm]
      by_cases hc : ((CitationToBibliography dec doc).normative.isSome ||
          (CitationToBibliography dec doc).informative.isSome) = true
      · rw [if_pos hc]
        constructor
        · intro _
          exact hc
        · intro _
          exact List.mem_append.mpr (Or.inr (List.mem_singleton.mpr rfl))
      · rw [if_neg hc]
        constructor
        · intro hd
          exfalso
          rcases ctb_diags_shape dec doc _ hd with ⟨a, ha⟩
          cases ha
        · intro h
          exact absurd h hc
  · intro b hm
    refine ⟨?_, ?_, ?_, ?_, ?_⟩
    · simp only [AddBibliography, hm]
    · intro nb ib hn hi
      simp only [AddBibliography, hm]
      rw [hn, hi]
      have h2 := append_of_nbm_some
        [Node.mk .bibliographyWrapper [bibNode nb, bibNode ib]] doc b hm
      unfold backMatterKids
      rw [h2.2]
      rfl
    · intro nb hn hi
      simp only [AddBibliography, hm]
      rw [hn, hi]
      have h2 := append_of_nbm_some [bibNode nb] doc b hm
      unfold backMatterKids
      rw [h2.2]
      rfl
    · intro ib hn hi
      simp only [AddBibliography, hm]
      rw [hn, hi]
      have h2 := append_of_nbm_some [bibNode ib] doc b hm
      unfold backMatterKids
      rw [h2.2]
      rfl
    · intro hn hi
      constructor
      · simp only [AddBibliography, hm]
        rw [hn, hi]
        have h2 := append_of_nbm_some [] doc b hm
        unfold backMatterKids
        rw [h2.2]
        simp [Node.kids]
      · simp only [AddBibliography, hm]
        rw [hn, hi]
        rfl

/-- C3 witness: the contract evaluated on a tree with one normative citation
and an empty back-matter node. -/
theorem AddBibliography_contract_witness :
    (NodeBackMatter docNorm = some backNode) ∧
    ((CitationToBibliography decNone docNorm).normative = some bibNW) ∧
    ((CitationToBibliography decNone docNorm).informative = none) ∧
    backMatterKids (AddBibliography decNone docNorm).1 =
      some (backNode.kids ++ [bibNode bibNW]) :=
  ⟨rfl, rfl, rfl,
   ((AddBibliography_contract decNone docNorm).2 backNode rfl).2.2.1 bibNW
     rfl rfl⟩

end Mmark
